import Mathlib

/-!
Verification of the Poco task-execution subsystem (Foundation/src/TaskManager.cpp)
against its design description.

The registry is modelled as a list of task identities (insertion order), the
progress throttle as an optional timestamp in microseconds, and each manager
operation as a pure state transformer returning the new state together with the
externally observable effects (whether an exception propagated, whether a
notification was posted).  Because every critical section of the C++ code runs
under the single registry mutex, operations are modelled as atomic transformers;
`startSync`, which releases the mutex around the task's `run()` call, takes the
behaviour of `run` as an explicit argument so that reentrant registry
modifications made while the lock is free can be expressed.
-/

namespace Poco

/-- Task lifecycle states (`TASK_IDLE`, `TASK_STARTING`, `TASK_RUNNING`,
`TASK_CANCELLING`, `TASK_FINISHED`), as referenced by `TaskManager.cpp` via
`Task::TASK_STARTING` and described in the design's state machine. -/
inductive TaskState where
  | TASK_IDLE
  | TASK_STARTING
  | TASK_RUNNING
  | TASK_CANCELLING
  | TASK_FINISHED
  deriving DecidableEq, Repr

/-- Modelled from the spec: the Task class itself (`Poco/Task.h`, `Task.cpp`) is
not among the excerpted sources, only its use in `TaskManager.cpp`.  Per the
data model, a task carries an identity, a lifecycle state, an atomic
cancel-requested flag and a back-reference to its owning manager (identified
here by a number).  `setOwner` and `setState`, called by the manager, set the
corresponding fields. -/
structure Task where
  id : Nat
  owner : Option Nat := none
  state : TaskState := TaskState.TASK_IDLE
  cancelRequested : Bool := false
  deriving DecidableEq, Repr

/-- State of a `TaskManager`: the registry `_taskList` (task identities in
insertion order) and the shared `_lastProgressNotification` throttle timestamp.
Modelled from the spec: `Poco/Timestamp.h` is not among the excerpted sources;
the throttle state records the time of the last forwarded progress event, and
`none` is the initial state of a freshly constructed manager, in which no
progress event has been forwarded yet. -/
structure TaskManager where
  taskList : List Nat
  lastProgressNotification : Option Nat
  deriving DecidableEq, Repr

/-- Embedding of `TaskManager.cpp:22`: `MIN_PROGRESS_NOTIFICATION_INTERVAL = 100000`
microseconds (100 milliseconds). -/
def MIN_PROGRESS_NOTIFICATION_INTERVAL : Nat := 100000

/-- A freshly constructed manager: empty registry, no progress event forwarded
yet (`TaskManager.cpp:25-34`: the constructors initialise only the thread-pool
reference; the registry starts empty). -/
def TaskManager.fresh : TaskManager :=
  { taskList := [], lastProgressNotification := none }

/-- Embedding of `TaskManager::start` (`TaskManager.cpp:42-62`).  The whole body runs under
`FastMutex::ScopedLock`, so it is one atomic step: take ownership, set state
`TASK_STARTING`, `push_back` onto the registry, then call the pool's admission
(`_threadPool.start`), whose outcome is the argument `admissionOk`.  If admission
throws, the `catch (...)` block does `_taskList.pop_back()` and rethrows.
Returns the task (with owner and state as the code left them), the new manager
state, and whether an exception propagated to the caller. -/
def TaskManager.start (m : TaskManager) (mid : Nat) (t : Task) (admissionOk : Bool) :
    Task × TaskManager × Bool :=
  let pAutoTask : Task := { t with owner := some mid, state := TaskState.TASK_STARTING }
  let m1 : TaskManager := { m with taskList := m.taskList ++ [pAutoTask.id] }
  if admissionOk then
    (pAutoTask, m1, false)
  else
    (pAutoTask, { m1 with taskList := m1.taskList.dropLast }, true)

/-- Embedding of `TaskManager::startSync` (`TaskManager.cpp:65-88`).  Under the lock: set
owner, set state `TASK_STARTING`, `push_back`; then `lock.unlock()` and call
`pAutoTask->run()` with the mutex free — so `run` is passed in as an arbitrary
transformer of the manager state (it may reenter the manager through callbacks),
returning the state it leaves behind and whether it threw.  If `run` threw, the
`catch (...)` block reacquires the mutex, does `_taskList.pop_back()` (removing
the LAST entry of the registry at that moment), and rethrows. -/
def TaskManager.startSync (m : TaskManager) (mid : Nat) (t : Task)
    (run : TaskManager → TaskManager × Bool) : Task × TaskManager × Bool :=
  let pAutoTask : Task := { t with owner := some mid, state := TaskState.TASK_STARTING }
  let m1 : TaskManager := { m with taskList := m.taskList ++ [pAutoTask.id] }
  let r := run m1
  if r.2 then
    (pAutoTask, { r.1 with taskList := r.1.taskList.dropLast }, true)
  else
    (pAutoTask, r.1, false)

/-- Embedding of `TaskManager::cancelAll` (`TaskManager.cpp:91-99`): under the lock, iterate
over the registry and call `cancel()` on every entry.  The registry itself is
not modified; the second component records on which tasks a cancel was
requested (every current entry, in order). -/
def TaskManager.cancelAll (m : TaskManager) : TaskManager × List Nat :=
  (m, m.taskList)

/-- Embedding of `TaskManager::taskList` (`TaskManager.cpp:108-113`): returns a copy of the
registry taken under the lock. -/
def TaskManager.snapshot (m : TaskManager) : List Nat :=
  m.taskList

/-- The erase loop of `TaskManager::taskFinished` (`TaskManager.cpp:164-172`):
scan the registry in order for the first entry equal (by identity) to the given
task, erase it and `break`; if no entry matches, the list is unchanged. -/
def removeFirstMatch : List Nat → Nat → List Nat
  | [], _ => []
  | x :: xs, t => if x = t then xs else x :: removeFirstMatch xs t

/-- Embedding of `TaskManager::taskFinished` (`TaskManager.cpp:159-176`): under the lock,
remove the first registry entry matching the task (if any); unlock; then post a
`TaskFinishedNotification` unconditionally.  The Boolean records that the
finished event was posted. -/
def TaskManager.taskFinished (m : TaskManager) (t : Nat) : TaskManager × Bool :=
  ({ m with taskList := removeFirstMatch m.taskList t }, true)

/-- Modelled from the spec: `Timestamp::isElapsed` (`Poco/Timestamp.h`) is not
among the excerpted sources.  Per the Progress Throttle design, the check is
whether at least `interval` has elapsed since the last forwarded progress
event; before any progress event has been forwarded (`none`) the check passes. -/
def progressDue (last : Option Nat) (now interval : Nat) : Bool :=
  match last with
  | none => true
  | some l => decide (interval ≤ now - l)

/-- Embedding of `TaskManager::taskProgress` (`TaskManager.cpp:140-150`): under the lock,
test `_lastProgressNotification.isElapsed(MIN_PROGRESS_NOTIFICATION_INTERVAL)`;
if so, `update()` the timestamp to the current time, unlock, and post a
`TaskProgressNotification`; otherwise do nothing (the update is dropped).
`now` is the current time in microseconds; the Boolean records whether the
progress event was posted. -/
def TaskManager.taskProgress (m : TaskManager) (now : Nat) : TaskManager × Bool :=
  if progressDue m.lastProgressNotification now MIN_PROGRESS_NOTIFICATION_INTERVAL then
    ({ m with lastProgressNotification := some now }, true)
  else
    (m, false)

/-- Embedding of `TaskManager::taskStarted` (`TaskManager.cpp:134-137`): posts a started
event unconditionally; no state change. -/
def TaskManager.taskStarted (m : TaskManager) : TaskManager × Bool :=
  (m, true)

/-- Embedding of `TaskManager::taskCancelled` (`TaskManager.cpp:153-156`): posts a cancelled
event unconditionally; no state change. -/
def TaskManager.taskCancelled (m : TaskManager) : TaskManager × Bool :=
  (m, true)

/-- Embedding of `TaskManager::taskFailed` (`TaskManager.cpp:179-182`): posts a failed event
unconditionally; no state change. -/
def TaskManager.taskFailed (m : TaskManager) : TaskManager × Bool :=
  (m, true)

/-- The list of times at which progress events are actually forwarded when the
manager receives `taskProgress` calls at the given sequence of times. -/
def forwardedTimes (m : TaskManager) : List Nat → List Nat
  | [] => []
  | t :: ts =>
    let r := m.taskProgress t
    if r.2 then t :: forwardedTimes r.1 ts else forwardedTimes r.1 ts

/-- The number of progress events actually forwarded for a sequence of
`taskProgress` call times. -/
def countForwarded (m : TaskManager) : List Nat → Nat
  | [] => 0
  | t :: ts =>
    let r := m.taskProgress t
    (if r.2 then 1 else 0) + countForwarded r.1 ts

/-! ### Helper lemmas about the registry erase loop -/

theorem removeFirstMatch_of_not_mem {l : List Nat} {t : Nat} (h : t ∉ l) :
    removeFirstMatch l t = l := by
  induction l with
  | nil => rfl
  | cons x xs ih =>
    simp only [List.mem_cons, not_or] at h
    simp [removeFirstMatch, h.1, ih h.2, Ne.symm h.1]

theorem count_removeFirstMatch_of_ne (l : List Nat) {x t : Nat} (h : x ≠ t) :
    (removeFirstMatch l t).count x = l.count x := by
  induction l with
  | nil => rfl
  | cons y ys ih =>
    by_cases hy : y = t
    · subst hy
      simp [removeFirstMatch, List.count_cons, h]
    · simp [removeFirstMatch, hy, List.count_cons, ih]

theorem mem_removeFirstMatch_of_ne {l : List Nat} {x t : Nat} (h : x ≠ t) :
    x ∈ removeFirstMatch l t ↔ x ∈ l := by
  rw [← List.count_pos_iff, ← List.count_pos_iff,
    count_removeFirstMatch_of_ne l h]

theorem length_removeFirstMatch (l : List Nat) (t : Nat) :
    l.length - 1 ≤ (removeFirstMatch l t).length ∧
      (removeFirstMatch l t).length ≤ l.length := by
  induction l with
  | nil => simp [removeFirstMatch]
  | cons x xs ih =>
    by_cases hx : x = t
    · simp [removeFirstMatch, hx]
    · simp only [removeFirstMatch, if_neg hx, List.length_cons]
      omega

theorem count_removeFirstMatch_self_of_mem {l : List Nat} {t : Nat} (h : t ∈ l) :
    (removeFirstMatch l t).count t + 1 = l.count t := by
  induction l with
  | nil => cases h
  | cons x xs ih =>
    by_cases hx : x = t
    · subst hx
      simp [removeFirstMatch, List.count_cons_self]
    · have hxs : t ∈ xs := by
        rcases List.mem_cons.mp h with h1 | h1
        · exact absurd h1.symm hx
        · exact h1
      have hrec := ih hxs
      simp only [removeFirstMatch, if_neg hx, List.count_cons, beq_iff_eq,
        if_neg (Ne.symm hx)]
      omega

theorem removeFirstMatch_sublist (l : List Nat) (t : Nat) :
    (removeFirstMatch l t).Sublist l := by
  induction l with
  | nil => simp [removeFirstMatch]
  | cons x xs ih =>
    by_cases hx : x = t
    · simp [removeFirstMatch, hx]
    · simpa [removeFirstMatch, hx] using ih

theorem nodup_removeFirstMatch {l : List Nat} (h : l.Nodup) (t : Nat) :
    (removeFirstMatch l t).Nodup :=
  h.sublist (removeFirstMatch_sublist l t)

theorem not_mem_removeFirstMatch_of_count_le {l : List Nat} {t : Nat}
    (h : l.count t ≤ 1) : t ∉ removeFirstMatch l t := by
  by_cases hmem : t ∈ l
  · have hc := count_removeFirstMatch_self_of_mem hmem
    intro habs
    rw [← List.count_pos_iff] at habs
    omega
  · rw [removeFirstMatch_of_not_mem hmem]
    exact hmem

/-! ### C1: rollback of `start` on admission failure -/

/-- C1. If the pool's admission throws inside `start`, the manager pops the
just-inserted registry entry and rethrows: the error propagates, the registry
afterwards equals the registry before the call (same size, and it does not
contain the task, provided the task was not already registered), and the task
is left with its owner set to this manager and its state `TASK_STARTING` —
never `TASK_RUNNING`. -/
theorem start_admission_failure_rollback (m : TaskManager) (mid : Nat) (t : Task)
    (hpre : t.id ∉ m.taskList) :
    (m.start mid t false).2.2 = true ∧
    (m.start mid t false).2.1.taskList = m.taskList ∧
    (m.start mid t false).2.1.taskList.length = m.taskList.length ∧
    t.id ∉ (m.start mid t false).2.1.taskList ∧
    (m.start mid t false).1.owner = some mid ∧
    (m.start mid t false).1.state = TaskState.TASK_STARTING ∧
    (m.start mid t false).1.state ≠ TaskState.TASK_RUNNING := by
  refine ⟨rfl, ?_, ?_, ?_, rfl, rfl, by simp [TaskManager.start]⟩ <;>
    simp [TaskManager.start, List.dropLast_concat, hpre]

/-- Witness for C1 at a concrete state: manager with registry `[5]`,
task `7`, manager identity `0`. -/
theorem start_admission_failure_rollback_witness :
    (7 : Nat) ∉ [5] ∧
    ((TaskManager.mk [5] none).start 0 { id := 7 } false).2.1.taskList = [5] := by
  refine ⟨by decide, ?_⟩
  exact (start_admission_failure_rollback (TaskManager.mk [5] none) 0 { id := 7 }
    (by decide)).2.1

/-! ### C3: `taskFinished` removes at most one entry, by identity -/

/-- C3. `taskFinished` removes at most one registry entry, namely one
matching the task by identity: entries of other identities keep their
multiplicity, the length drops by at most one, an unregistered task is a
silent no-op on the whole state, and (when the task occurs at most once, as
the registry invariant guarantees) a second `taskFinished` for the same task
leaves the state unchanged. -/
theorem taskFinished_removes_at_most_one (m : TaskManager) (t : Nat)
    (hcount : m.taskList.count t ≤ 1) :
    (∀ x, x ≠ t → (m.taskFinished t).1.taskList.count x = m.taskList.count x) ∧
    m.taskList.length - 1 ≤ (m.taskFinished t).1.taskList.length ∧
    (m.taskFinished t).1.taskList.length ≤ m.taskList.length ∧
    (t ∉ m.taskList → (m.taskFinished t).1 = m) ∧
    ((m.taskFinished t).1.taskFinished t).1 = (m.taskFinished t).1 := by
  refine ⟨fun x hx => count_removeFirstMatch_of_ne m.taskList hx,
    (length_removeFirstMatch m.taskList t).1,
    (length_removeFirstMatch m.taskList t).2, ?_, ?_⟩
  · intro habs
    simp [TaskManager.taskFinished, removeFirstMatch_of_not_mem habs]
  · have : t ∉ removeFirstMatch m.taskList t :=
      not_mem_removeFirstMatch_of_count_le hcount
    simp [TaskManager.taskFinished, removeFirstMatch_of_not_mem this]

/-- Witness for C3 at a concrete state: registry `[1, 2]`, finishing task `2`
twice. -/
theorem taskFinished_removes_at_most_one_witness :
    ([1, 2] : List Nat).count 2 ≤ 1 ∧
    (((TaskManager.mk [1, 2] none).taskFinished 2).1.taskFinished 2).1 =
      ((TaskManager.mk [1, 2] none).taskFinished 2).1 :=
  ⟨by decide,
    (taskFinished_removes_at_most_one (TaskManager.mk [1, 2] none) 2 (by decide)).2.2.2.2⟩

/-! ### C5: the progress throttle forwards iff the interval has elapsed -/

/-- C5. Once some progress event has been forwarded (the shared timestamp
holds `l`), `taskProgress` posts a progress event iff at least
`MIN_PROGRESS_NOTIFICATION_INTERVAL` (100 ms) has elapsed since `l`; when it
posts, the timestamp is updated to the current time; otherwise the update is
silently dropped and the whole state is unchanged. -/
theorem taskProgress_throttle (m : TaskManager) (now l : Nat)
    (h : m.lastProgressNotification = some l) :
    ((m.taskProgress now).2 = true ↔
      MIN_PROGRESS_NOTIFICATION_INTERVAL ≤ now - l) ∧
    ((m.taskProgress now).2 = true →
      (m.taskProgress now).1.lastProgressNotification = some now) ∧
    ((m.taskProgress now).2 = false → (m.taskProgress now).1 = m) := by
  by_cases hdue : MIN_PROGRESS_NOTIFICATION_INTERVAL ≤ now - l
  · refine ⟨⟨fun _ => hdue,
      fun _ => by simp [TaskManager.taskProgress, progressDue, h, hdue]⟩,
      fun _ => ?_, fun habs => ?_⟩
    · simp [TaskManager.taskProgress, progressDue, h, hdue]
    · simp [TaskManager.taskProgress, progressDue, h, hdue] at habs
  · refine ⟨⟨fun hpost => ?_, fun hd => absurd hd hdue⟩, fun hpost => ?_, fun _ => ?_⟩
    · simp [TaskManager.taskProgress, progressDue, h, hdue] at hpost
    · simp [TaskManager.taskProgress, progressDue, h, hdue] at hpost
    · simp [TaskManager.taskProgress, progressDue, h, hdue]

/-- Witness for C5: last forwarded at time `0`, current time `100000` μs —
exactly the interval, so the event is posted and the timestamp updated. -/
theorem taskProgress_throttle_witness :
    (TaskManager.mk [] (some 0)).lastProgressNotification = some 0 ∧
    ((TaskManager.mk [] (some 0)).taskProgress 100000).2 = true ∧
    ((TaskManager.mk [] (some 0)).taskProgress 100000).1.lastProgressNotification =
      some 100000 := by
  refine ⟨rfl, ?_, ?_⟩
  · exact (taskProgress_throttle (TaskManager.mk [] (some 0)) 100000 0 rfl).1.mpr
      (by decide)
  · exact (taskProgress_throttle (TaskManager.mk [] (some 0)) 100000 0 rfl).2.1
      ((taskProgress_throttle (TaskManager.mk [] (some 0)) 100000 0 rfl).1.mpr
        (by decide))

/-! ### C6: the 0/50/120/250 ms scenario -/

/-- C6. A freshly constructed manager receiving progress reports at
t = 0 ms, 50 ms, 120 ms and 250 ms (in microseconds: 0, 50000, 120000, 250000)
forwards exactly the reports at 0 ms, 120 ms and 250 ms; the 50 ms report is
dropped. -/
theorem progress_scenario_0_50_120_250 :
    forwardedTimes TaskManager.fresh [0, 50000, 120000, 250000] =
      [0, 120000, 250000] := by
  decide

/-! ### C9: `taskFinished` posts unconditionally -/

/-- C9. `taskFinished` posts a finished event unconditionally — also when
the task is not in the registry (the removal is then a no-op but the event is
still posted), so a duplicate `taskFinished` call posts a second finished
event. -/
theorem taskFinished_posts_unconditionally (m : TaskManager) (t : Nat) :
    (m.taskFinished t).2 = true ∧
    (t ∉ m.taskList →
      (m.taskFinished t).1 = m ∧ (m.taskFinished t).2 = true) ∧
    ((m.taskFinished t).1.taskFinished t).2 = true := by
  refine ⟨rfl, fun h => ⟨?_, rfl⟩, rfl⟩
  simp [TaskManager.taskFinished, removeFirstMatch_of_not_mem h]

/-- Witness for C9: finishing the unregistered task `3` on a manager whose
registry is `[1]` still posts the event and leaves the state unchanged. -/
theorem taskFinished_posts_unconditionally_witness :
    (3 : Nat) ∉ [1] ∧
    ((TaskManager.mk [1] none).taskFinished 3).1 = TaskManager.mk [1] none ∧
    ((TaskManager.mk [1] none).taskFinished 3).2 = true :=
  ⟨by decide,
    (taskFinished_posts_unconditionally (TaskManager.mk [1] none) 3).2.1 (by decide)⟩

/-! ### C10: a dropped progress update is a complete no-op -/

/-- C10. A throttled (dropped) `taskProgress` call leaves the manager state
completely unchanged; no `taskProgress` call ever modifies the registry; and
the shared timestamp changes only when a progress event is actually
forwarded. -/
theorem taskProgress_drop_frame (m : TaskManager) (now : Nat) :
    ((m.taskProgress now).2 = false → (m.taskProgress now).1 = m) ∧
    (m.taskProgress now).1.taskList = m.taskList ∧
    ((m.taskProgress now).1.lastProgressNotification ≠
        m.lastProgressNotification →
      (m.taskProgress now).2 = true) := by
  by_cases hdue : progressDue m.lastProgressNotification now
      MIN_PROGRESS_NOTIFICATION_INTERVAL = true
  · refine ⟨fun habs => ?_, ?_, fun _ => ?_⟩ <;>
      simp_all [TaskManager.taskProgress]
  · refine ⟨fun _ => ?_, ?_, fun hchanged => ?_⟩ <;>
      simp_all [TaskManager.taskProgress]

/-- Witness for C10: with the last forwarded event at time `0`, a report at
time `50000` (50 ms) is dropped and the state is unchanged. -/
theorem taskProgress_drop_frame_witness :
    ((TaskManager.mk [4] (some 0)).taskProgress 50000).2 = false ∧
    ((TaskManager.mk [4] (some 0)).taskProgress 50000).1 =
      TaskManager.mk [4] (some 0) :=
  ⟨by decide,
    (taskProgress_drop_frame (TaskManager.mk [4] (some 0)) 50000).1 (by decide)⟩

/-! ### C4: the `startSync` rollback pops the *last* entry, not T's entry -/

/-- A `run` body that reenters the manager — it successfully starts another
task (identity `7`) via `start` — and then throws. -/
def reentrantRun : TaskManager → TaskManager × Bool :=
  fun m => ((m.start 0 { id := 7 } true).2.1, true)

/-- C4, counterexample. Starting task `3` with `startSync` on a fresh
manager, where `run` admits task `7` through `start` and then throws: the
claim says the manager removes the entry `startSync` inserted for `3` (so `3`
is gone and `7` survives), but the `catch` block does `_taskList.pop_back()`,
which removes `7` — the last entry — and leaves `3` registered. -/
theorem startSync_rollback_counterexample :
    ((TaskManager.fresh.startSync 0 { id := 3 } reentrantRun).2.2 = true) ∧
    (3 : Nat) ∈ (TaskManager.fresh.startSync 0 { id := 3 } reentrantRun).2.1.taskList ∧
    (7 : Nat) ∉ (TaskManager.fresh.startSync 0 { id := 3 } reentrantRun).2.1.taskList := by
  decide

/-- C4, amended. If `run` throws inside `startSync(T)`, the manager pops
the **last** registry entry and re-raises.  This equals the entry `startSync`
inserted for T exactly when `run` left the registry as it found it:
under that hypothesis the registry afterwards equals the registry before the
call and T is not in it (given T was not already registered), and the error
propagates to the caller. -/
theorem startSync_rollback_amended (m : TaskManager) (mid : Nat) (t : Task)
    (run : TaskManager → TaskManager × Bool)
    (hreg : ∀ m', (run m').1.taskList = m'.taskList)
    (hthrows : ∀ m', (run m').2 = true)
    (hpre : t.id ∉ m.taskList) :
    (m.startSync mid t run).2.2 = true ∧
    (m.startSync mid t run).2.1.taskList = m.taskList ∧
    t.id ∉ (m.startSync mid t run).2.1.taskList := by
  have h1 : (m.startSync mid t run).2.1.taskList = m.taskList := by
    simp [TaskManager.startSync, hthrows, hreg, List.dropLast_concat]
  refine ⟨?_, h1, h1 ▸ hpre⟩
  simp [TaskManager.startSync, hthrows]

/-- Witness for the amended C4: task `3` on a manager with registry `[5]`,
with a `run` that throws without touching the registry. -/
theorem startSync_rollback_amended_witness :
    (3 : Nat) ∉ [5] ∧
    ((TaskManager.mk [5] none).startSync 0 { id := 3 }
        (fun m' => (m', true))).2.1.taskList = [5] :=
  ⟨by decide,
    (startSync_rollback_amended (TaskManager.mk [5] none) 0 { id := 3 }
      (fun m' => (m', true)) (fun _ => rfl) (fun _ => rfl) (by decide)).2.1⟩

/-! ### C8: which external calls run under the registry mutex

Each manager operation is transcribed as the sequence of lock events and
external calls its body performs, in program order, read directly off
`TaskManager.cpp`.  Folding over such a trace tells, for every external call,
whether `_mutex` was held at that moment. -/

/-- The external collaborators the manager calls into: the thread pool's
admission (`_threadPool.start`) and drain (`_threadPool.joinAll`), a task's
`run()` and `cancel()`, and the notification centre's `postNotification`. -/
inductive ExtCall where
  | poolAdmit
  | poolJoin
  | taskRun
  | taskCancel
  | hubPost
  deriving DecidableEq, Repr

/-- A primitive event of an operation's body: acquire `_mutex`, release
`_mutex`, or call into an external collaborator. -/
inductive Ev where
  | lockAcquire
  | lockRelease
  | ext (c : ExtCall)
  deriving DecidableEq, Repr

/-- Embedding of `TaskManager::start` (`TaskManager.cpp:42-62`): `FastMutex::ScopedLock`
acquires at line 45 and releases only when the function exits — so
`_threadPool.start` at line 52 runs with the mutex held. -/
def startEvents : List Ev :=
  [Ev.lockAcquire, Ev.ext ExtCall.poolAdmit, Ev.lockRelease]

/-- Embedding of `TaskManager::startSync` (`TaskManager.cpp:65-88`): `ScopedLockWithUnlock`
acquires at line 68, `lock.unlock()` at line 73, then `pAutoTask->run()` at
line 76 with the mutex free. -/
def startSyncEvents : List Ev :=
  [Ev.lockAcquire, Ev.lockRelease, Ev.ext ExtCall.taskRun]

/-- Embedding of `TaskManager::cancelAll` (`TaskManager.cpp:91-99`), with `n` registry
entries: `ScopedLock` acquires at line 93 and the loop calls `cancel()` on
every entry with the mutex held; no snapshot is taken. -/
def cancelAllEvents (n : Nat) : List Ev :=
  Ev.lockAcquire :: (List.replicate n (Ev.ext ExtCall.taskCancel) ++ [Ev.lockRelease])

/-- Embedding of `TaskManager::joinAll` (`TaskManager.cpp:102-105`): calls
`_threadPool.joinAll()` without touching the mutex. -/
def joinAllEvents : List Ev :=
  [Ev.ext ExtCall.poolJoin]

/-- Embedding of `TaskManager::taskFinished` (`TaskManager.cpp:159-176`): acquire at line
162, `lock.unlock()` at line 173, `postNotification` at line 175 with the
mutex free. -/
def taskFinishedEvents : List Ev :=
  [Ev.lockAcquire, Ev.lockRelease, Ev.ext ExtCall.hubPost]

/-- Embedding of `TaskManager::taskProgress` (`TaskManager.cpp:140-150`), forwarded case:
acquire at line 142, `lock.unlock()` at line 147, `postNotification` at line
148 with the mutex free. -/
def taskProgressForwardEvents : List Ev :=
  [Ev.lockAcquire, Ev.lockRelease, Ev.ext ExtCall.hubPost]

/-- Embedding of `TaskManager::taskStarted` / `taskCancelled` / `taskFailed`
(`TaskManager.cpp:134-137`, `153-156`, `179-182`): a bare `postNotification`,
no mutex. -/
def postOnlyEvents : List Ev :=
  [Ev.ext ExtCall.hubPost]

/-- Fold an event trace, recording for each external call whether the mutex
was held when it was made. -/
def extCallsHeld : Bool → List Ev → List (ExtCall × Bool)
  | _, [] => []
  | _, Ev.lockAcquire :: es => extCallsHeld true es
  | _, Ev.lockRelease :: es => extCallsHeld false es
  | held, Ev.ext c :: es => (c, held) :: extCallsHeld held es

theorem extCallsHeld_cancelAll (n : Nat) :
    extCallsHeld false (cancelAllEvents n) =
      List.replicate n (ExtCall.taskCancel, true) := by
  have haux : ∀ k, extCallsHeld true
      (List.replicate k (Ev.ext ExtCall.taskCancel) ++ [Ev.lockRelease]) =
      List.replicate k (ExtCall.taskCancel, true) := by
    intro k
    induction k with
    | zero => rfl
    | succ k ih => simp [List.replicate_succ, extCallsHeld, ih]
  simpa [cancelAllEvents, extCallsHeld] using haux n

/-- C8, counterexample. It is not the case that every external call is
made with the mutex free: `start` calls the pool's admission with the mutex
held (it never releases before `_threadPool.start`), and `cancelAll` (here
with one registered task) calls `cancel()` with the mutex held — it takes no
snapshot. -/
theorem lock_discipline_counterexample :
    ¬ (∀ p ∈ extCallsHeld false startEvents, p.2 = false) ∧
    ¬ (∀ p ∈ extCallsHeld false (cancelAllEvents 1), p.2 = false) := by
  decide

/-- C8, amended. The mutex is released before the external call in
`startSync` (before `run()`), `taskFinished` and forwarded `taskProgress`
(before posting), and the unconditional notification posts and `joinAll` never
touch it; but `start` performs the pool admission with the mutex held, and
`cancelAll` calls `cancel()` on every registry entry with the mutex held,
without snapshotting. -/
theorem lock_discipline_amended (n : Nat) :
    extCallsHeld false startEvents = [(ExtCall.poolAdmit, true)] ∧
    extCallsHeld false startSyncEvents = [(ExtCall.taskRun, false)] ∧
    extCallsHeld false (cancelAllEvents n) =
      List.replicate n (ExtCall.taskCancel, true) ∧
    extCallsHeld false taskFinishedEvents = [(ExtCall.hubPost, false)] ∧
    extCallsHeld false taskProgressForwardEvents = [(ExtCall.hubPost, false)] ∧
    extCallsHeld false joinAllEvents = [(ExtCall.poolJoin, false)] ∧
    extCallsHeld false postOnlyEvents = [(ExtCall.hubPost, false)] :=
  ⟨rfl, rfl, extCallsHeld_cancelAll n, rfl, rfl, rfl, rfl⟩

/-! ### C7: bound on the number of forwarded progress events -/

theorem countForwarded_from_some (tl : List Nat) (hi : Nat) :
    ∀ (times : List Nat) (l : Nat), times.Pairwise (· ≤ ·) →
      (∀ s ∈ times, l ≤ s ∧ s ≤ hi) →
      countForwarded (TaskManager.mk tl (some l)) times ≤
        (hi - l) / MIN_PROGRESS_NOTIFICATION_INTERVAL := by
  intro times
  induction times with
  | nil => intro l _ _; simp [countForwarded]
  | cons t ts ih =>
    intro l hp hb
    have hpt : ∀ s ∈ ts, t ≤ s := (List.pairwise_cons.mp hp).1
    have hpts : ts.Pairwise (· ≤ ·) := (List.pairwise_cons.mp hp).2
    have hbt := hb t (List.mem_cons_self t ts)
    by_cases h : MIN_PROGRESS_NOTIFICATION_INTERVAL ≤ t - l
    · have hstep : countForwarded (TaskManager.mk tl (some l)) (t :: ts) =
          1 + countForwarded (TaskManager.mk tl (some t)) ts := by
        simp [countForwarded, TaskManager.taskProgress, progressDue, h]
      rw [hstep]
      have hrec := ih t hpts
        (fun s hs => ⟨hpt s hs, (hb s (List.mem_cons_of_mem t hs)).2⟩)
      have hT : 0 < MIN_PROGRESS_NOTIFICATION_INTERVAL := by decide
      have hle : (hi - t) + MIN_PROGRESS_NOTIFICATION_INTERVAL ≤ hi - l := by
        omega
      have heq : 1 + (hi - t) / MIN_PROGRESS_NOTIFICATION_INTERVAL =
          ((hi - t) + MIN_PROGRESS_NOTIFICATION_INTERVAL) /
            MIN_PROGRESS_NOTIFICATION_INTERVAL := by
        rw [Nat.add_div_right _ hT]
        omega
      have hmono : ((hi - t) + MIN_PROGRESS_NOTIFICATION_INTERVAL) /
            MIN_PROGRESS_NOTIFICATION_INTERVAL ≤
          (hi - l) / MIN_PROGRESS_NOTIFICATION_INTERVAL :=
        Nat.div_le_div_right hle
      omega
    · have hstep : countForwarded (TaskManager.mk tl (some l)) (t :: ts) =
          countForwarded (TaskManager.mk tl (some l)) ts := by
        simp [countForwarded, TaskManager.taskProgress, progressDue, h]
      rw [hstep]
      exact ih l hpts (fun s hs =>
        ⟨Nat.le_trans hbt.1 (hpt s hs), (hb s (List.mem_cons_of_mem t hs)).2⟩)

/-- C7. For any time-ordered sequence of `taskProgress` calls whose times
all lie within a window of duration `D` (microseconds), a manager that has not
yet forwarded any progress event forwards at most
`⌈D / T⌉ + 1` of them, where `T = MIN_PROGRESS_NOTIFICATION_INTERVAL`
(the ceiling is written `(D + T - 1) / T` in natural-number arithmetic). -/
theorem progress_forward_bound (tl : List Nat) (times : List Nat) (lo D : Nat)
    (hsorted : times.Pairwise (· ≤ ·))
    (hspan : ∀ s ∈ times, lo ≤ s ∧ s ≤ lo + D) :
    countForwarded (TaskManager.mk tl none) times ≤
      (D + MIN_PROGRESS_NOTIFICATION_INTERVAL - 1) /
        MIN_PROGRESS_NOTIFICATION_INTERVAL + 1 := by
  have hTpos : 0 < MIN_PROGRESS_NOTIFICATION_INTERVAL := by decide
  have hceil : D / MIN_PROGRESS_NOTIFICATION_INTERVAL ≤
      (D + MIN_PROGRESS_NOTIFICATION_INTERVAL - 1) /
        MIN_PROGRESS_NOTIFICATION_INTERVAL :=
    Nat.div_le_div_right (by omega)
  cases times with
  | nil => simp [countForwarded]
  | cons t ts =>
    have hpt : ∀ s ∈ ts, t ≤ s := (List.pairwise_cons.mp hsorted).1
    have hpts : ts.Pairwise (· ≤ ·) := (List.pairwise_cons.mp hsorted).2
    have hbt := hspan t (List.mem_cons_self t ts)
    have hstep : countForwarded (TaskManager.mk tl none) (t :: ts) =
        1 + countForwarded (TaskManager.mk tl (some t)) ts := by
      simp [countForwarded, TaskManager.taskProgress, progressDue]
    rw [hstep]
    have hrec := countForwarded_from_some tl (lo + D) ts t hpts
      (fun s hs => ⟨hpt s hs, (hspan s (List.mem_cons_of_mem t hs)).2⟩)
    have hwin : lo + D - t ≤ D := by omega
    have hmono : (lo + D - t) / MIN_PROGRESS_NOTIFICATION_INTERVAL ≤
        D / MIN_PROGRESS_NOTIFICATION_INTERVAL :=
      Nat.div_le_div_right hwin
    omega

/-- Witness for C7: reports at 0 ms, 30 ms and 160 ms span `D = 160000` μs;
two are forwarded, and the bound is `⌈160000/100000⌉ + 1 = 3`. -/
theorem progress_forward_bound_witness :
    ([0, 30000, 160000] : List Nat).Pairwise (· ≤ ·) ∧
    countForwarded (TaskManager.mk [] none) [0, 30000, 160000] ≤
      (160000 + MIN_PROGRESS_NOTIFICATION_INTERVAL - 1) /
        MIN_PROGRESS_NOTIFICATION_INTERVAL + 1 :=
  ⟨by decide,
    progress_forward_bound [] [0, 30000, 160000] 0 160000 (by decide) (by decide)⟩

/-! ### C2: the registry holds exactly the admitted, not-yet-finished tasks

Operations are serialised by the registry mutex, so a history of the manager
is a list of atomic steps.  `start` resolves its admission inside its critical
section (`admissionOk`); a `startSync` whose `run` body reenters the manager shows
up as the reentered operations at their place in the history. -/

/-- One atomic step of a manager history: the two outcomes of `start`
admission, `startSync` completing or throwing (with no reentrant registry
operation between its insert and its rollback), the five callbacks, and the
query/cancel operations. -/
inductive MOp where
  | startOk (t : Nat)
  | startFail (t : Nat)
  | syncOk (t : Nat)
  | syncFail (t : Nat)
  | finish (t : Nat)
  | cancelAll
  | progress (now : Nat)
  | started (t : Nat)
  | cancelled (t : Nat)
  | failed (t : Nat)
  deriving DecidableEq, Repr

/-- Effect of one step on the manager state, through the operations
transcribed from `TaskManager.cpp`. -/
def execOp (m : TaskManager) : MOp → TaskManager
  | MOp.startOk t => (m.start 0 { id := t } true).2.1
  | MOp.startFail t => (m.start 0 { id := t } false).2.1
  | MOp.syncOk t => (m.startSync 0 { id := t } (fun m' => (m', false))).2.1
  | MOp.syncFail t => (m.startSync 0 { id := t } (fun m' => (m', true))).2.1
  | MOp.finish t => (m.taskFinished t).1
  | MOp.cancelAll => m.cancelAll.1
  | MOp.progress now => (m.taskProgress now).1
  | MOp.started _ => m.taskStarted.1
  | MOp.cancelled _ => m.taskCancelled.1
  | MOp.failed _ => m.taskFailed.1

/-- Run a whole history from a given state. -/
def execTrace (m : TaskManager) : List MOp → TaskManager
  | [] => m
  | op :: ops => execTrace (execOp m op) ops

/-- The identities successfully admitted (asynchronously or synchronously)
in a history, in order. -/
def admittedIds : List MOp → List Nat
  | [] => []
  | MOp.startOk t :: ops => t :: admittedIds ops
  | MOp.syncOk t :: ops => t :: admittedIds ops
  | _ :: ops => admittedIds ops

/-- The identities for which `taskFinished` was invoked in a history. -/
def finishedIds : List MOp → List Nat
  | [] => []
  | MOp.finish t :: ops => t :: finishedIds ops
  | _ :: ops => finishedIds ops

/-- Well-formed histories, given the identities already started: a task object
is handed over to the manager (and hence started) at most once ever — the
caller transfers ownership at `start`/`startSync` — and `taskFinished` is
invoked only from the execution context of a task that was started. -/
def WFfrom (seen : List Nat) : List MOp → Bool
  | [] => true
  | MOp.startOk t :: ops => !(decide (t ∈ seen)) && WFfrom (t :: seen) ops
  | MOp.syncOk t :: ops => !(decide (t ∈ seen)) && WFfrom (t :: seen) ops
  | MOp.finish t :: ops => decide (t ∈ seen) && WFfrom seen ops
  | MOp.startFail _ :: ops => WFfrom seen ops
  | MOp.syncFail _ :: ops => WFfrom seen ops
  | MOp.cancelAll :: ops => WFfrom seen ops
  | MOp.progress _ :: ops => WFfrom seen ops
  | MOp.started _ :: ops => WFfrom seen ops
  | MOp.cancelled _ :: ops => WFfrom seen ops
  | MOp.failed _ :: ops => WFfrom seen ops

theorem taskProgress_preserves_taskList (m : TaskManager) (now : Nat) :
    (m.taskProgress now).1.taskList = m.taskList := by
  by_cases h : progressDue m.lastProgressNotification now
      MIN_PROGRESS_NOTIFICATION_INTERVAL = true <;>
    simp [TaskManager.taskProgress, h]

theorem execOp_taskList_startOk (m : TaskManager) (u : Nat) :
    (execOp m (MOp.startOk u)).taskList = m.taskList ++ [u] := rfl

theorem execOp_taskList_syncOk (m : TaskManager) (u : Nat) :
    (execOp m (MOp.syncOk u)).taskList = m.taskList ++ [u] := rfl

theorem execOp_taskList_startFail (m : TaskManager) (u : Nat) :
    (execOp m (MOp.startFail u)).taskList = m.taskList := by
  show (m.taskList ++ [u]).dropLast = m.taskList
  exact List.dropLast_concat

theorem execOp_taskList_syncFail (m : TaskManager) (u : Nat) :
    (execOp m (MOp.syncFail u)).taskList = m.taskList := by
  show (m.taskList ++ [u]).dropLast = m.taskList
  exact List.dropLast_concat

theorem execOp_taskList_finish (m : TaskManager) (u : Nat) :
    (execOp m (MOp.finish u)).taskList = removeFirstMatch m.taskList u := rfl

/-- Nodup is preserved when appending a fresh element. -/
theorem nodup_append_singleton {l : List Nat} {u : Nat}
    (hnd : l.Nodup) (hu : u ∉ l) : (l ++ [u]).Nodup := by
  rw [List.nodup_append]
  refine ⟨hnd, List.nodup_singleton u, ?_⟩
  intro a ha hau
  simp only [List.mem_singleton] at hau
  exact hu (hau ▸ ha)

/-- Pulling a fresh element from the left disjunct to the right one. -/
theorem mem_cons_or_shuffle (u x : Nat) (s a : List Nat) :
    (x ∈ u :: s ∨ x ∈ a) ↔ (x ∈ s ∨ x ∈ u :: a) := by
  simp only [List.mem_cons]
  tauto

/-- The registry invariant, generalised over an arbitrary starting point:
`seen` are the identities started before, `fin` those finished before, and the
current registry is duplicate-free and holds exactly the started-not-finished
identities.  Then after any well-formed continuation the registry again holds
exactly the started-not-finished identities, without duplicates. -/
theorem registry_invariant :
    ∀ (tr : List MOp) (m : TaskManager) (seen fin : List Nat),
      WFfrom seen tr = true →
      (∀ x ∈ fin, x ∈ seen) →
      m.taskList.Nodup →
      (∀ x, x ∈ m.taskList ↔ (x ∈ seen ∧ x ∉ fin)) →
      (execTrace m tr).taskList.Nodup ∧
      (∀ x, x ∈ (execTrace m tr).taskList ↔
        ((x ∈ seen ∨ x ∈ admittedIds tr) ∧ ¬(x ∈ fin ∨ x ∈ finishedIds tr))) := by
  intro tr
  induction tr with
  | nil =>
    intro m seen fin _ _ hnd hiff
    refine ⟨hnd, fun x => ?_⟩
    simpa [execTrace, admittedIds, finishedIds] using hiff x
  | cons op rest ih =>
    intro m seen fin hwf hfs hnd hiff
    cases op with
    | startOk u =>
      simp only [WFfrom, Bool.and_eq_true, Bool.not_eq_true',
        decide_eq_false_iff_not] at hwf
      obtain ⟨hu, hwf'⟩ := hwf
      have humem : u ∉ m.taskList := fun hc => hu ((hiff u).mp hc).1
      have hrec := ih (execOp m (MOp.startOk u)) (u :: seen) fin hwf'
        (fun x hx => List.mem_cons_of_mem u (hfs x hx))
        (by rw [execOp_taskList_startOk]; exact nodup_append_singleton hnd humem)
        (by
          intro x
          rw [execOp_taskList_startOk]
          constructor
          · intro hx
            rcases List.mem_append.mp hx with hx | hx
            · have := (hiff x).mp hx
              exact ⟨List.mem_cons_of_mem u this.1, this.2⟩
            · have hxu : x = u := by simpa using hx
              subst hxu
              exact ⟨List.mem_cons_self x seen, fun hc => hu (hfs x hc)⟩
          · rintro ⟨hx1, hx2⟩
            rcases List.mem_cons.mp hx1 with hx1 | hx1
            · subst hx1
              exact List.mem_append.mpr (Or.inr (by simp))
            · exact List.mem_append.mpr (Or.inl ((hiff x).mpr ⟨hx1, hx2⟩)))
      refine ⟨hrec.1, fun x => ?_⟩
      have := hrec.2 x
      simp only [execTrace, admittedIds, finishedIds] at this ⊢
      rw [this]
      exact and_congr_left' (mem_cons_or_shuffle u x seen (admittedIds rest))
    | syncOk u =>
      simp only [WFfrom, Bool.and_eq_true, Bool.not_eq_true',
        decide_eq_false_iff_not] at hwf
      obtain ⟨hu, hwf'⟩ := hwf
      have humem : u ∉ m.taskList := fun hc => hu ((hiff u).mp hc).1
      have hrec := ih (execOp m (MOp.syncOk u)) (u :: seen) fin hwf'
        (fun x hx => List.mem_cons_of_mem u (hfs x hx))
        (by rw [execOp_taskList_syncOk]; exact nodup_append_singleton hnd humem)
        (by
          intro x
          rw [execOp_taskList_syncOk]
          constructor
          · intro hx
            rcases List.mem_append.mp hx with hx | hx
            · have := (hiff x).mp hx
              exact ⟨List.mem_cons_of_mem u this.1, this.2⟩
            · have hxu : x = u := by simpa using hx
              subst hxu
              exact ⟨List.mem_cons_self x seen, fun hc => hu (hfs x hc)⟩
          · rintro ⟨hx1, hx2⟩
            rcases List.mem_cons.mp hx1 with hx1 | hx1
            · subst hx1
              exact List.mem_append.mpr (Or.inr (by simp))
            · exact List.mem_append.mpr (Or.inl ((hiff x).mpr ⟨hx1, hx2⟩)))
      refine ⟨hrec.1, fun x => ?_⟩
      have := hrec.2 x
      simp only [execTrace, admittedIds, finishedIds] at this ⊢
      rw [this]
      exact and_congr_left' (mem_cons_or_shuffle u x seen (admittedIds rest))
    | startFail u =>
      simp only [WFfrom] at hwf
      have hrec := ih (execOp m (MOp.startFail u)) seen fin hwf hfs
        (by rw [execOp_taskList_startFail]; exact hnd)
        (by intro x; rw [execOp_taskList_startFail]; exact hiff x)
      refine ⟨hrec.1, fun x => ?_⟩
      simpa [execTrace, admittedIds, finishedIds] using hrec.2 x
    | syncFail u =>
      simp only [WFfrom] at hwf
      have hrec := ih (execOp m (MOp.syncFail u)) seen fin hwf hfs
        (by rw [execOp_taskList_syncFail]; exact hnd)
        (by intro x; rw [execOp_taskList_syncFail]; exact hiff x)
      refine ⟨hrec.1, fun x => ?_⟩
      simpa [execTrace, admittedIds, finishedIds] using hrec.2 x
    | finish u =>
      simp only [WFfrom, Bool.and_eq_true, decide_eq_true_eq] at hwf
      obtain ⟨hu, hwf'⟩ := hwf
      have hcount : m.taskList.count u ≤ 1 :=
        List.nodup_iff_count_le_one.mp hnd u
      have hrec := ih (execOp m (MOp.finish u)) seen (u :: fin) hwf'
        (by
          intro x hx
          rcases List.mem_cons.mp hx with hx | hx
          · exact hx ▸ hu
          · exact hfs x hx)
        (by rw [execOp_taskList_finish]; exact nodup_removeFirstMatch hnd u)
        (by
          intro x
          rw [execOp_taskList_finish]
          by_cases hxu : x = u
          · subst hxu
            constructor
            · intro hc
              exact absurd hc (not_mem_removeFirstMatch_of_count_le hcount)
            · rintro ⟨_, hc⟩
              exact absurd (List.mem_cons_self x fin) hc
          · rw [mem_removeFirstMatch_of_ne hxu, hiff x]
            constructor
            · rintro ⟨h1, h2⟩
              refine ⟨h1, fun hc => ?_⟩
              rcases List.mem_cons.mp hc with hc | hc
              · exact hxu hc
              · exact h2 hc
            · rintro ⟨h1, h2⟩
              exact ⟨h1, fun hc => h2 (List.mem_cons_of_mem u hc)⟩)
      refine ⟨hrec.1, fun x => ?_⟩
      have := hrec.2 x
      simp only [execTrace, admittedIds, finishedIds] at this ⊢
      rw [this]
      constructor
      · rintro ⟨h1, h2⟩
        refine ⟨h1, fun hc => h2 ?_⟩
        rcases hc with hc | hc
        · exact Or.inl (List.mem_cons_of_mem u hc)
        · rcases List.mem_cons.mp hc with hc | hc
          · exact Or.inl (hc ▸ List.mem_cons_self u fin)
          · exact Or.inr hc
      · rintro ⟨h1, h2⟩
        refine ⟨h1, fun hc => h2 ?_⟩
        rcases hc with hc | hc
        · rcases List.mem_cons.mp hc with hc | hc
          · exact Or.inr (hc ▸ List.mem_cons_self u (finishedIds rest))
          · exact Or.inl hc
        · exact Or.inr (List.mem_cons_of_mem u hc)
    | cancelAll =>
      simp only [WFfrom] at hwf
      have hrec := ih (execOp m MOp.cancelAll) seen fin hwf hfs hnd hiff
      refine ⟨hrec.1, fun x => ?_⟩
      simpa [execTrace, admittedIds, finishedIds] using hrec.2 x
    | progress now =>
      simp only [WFfrom] at hwf
      have hrec := ih (execOp m (MOp.progress now)) seen fin hwf hfs
        (by
          show ((m.taskProgress now).1.taskList).Nodup
          rw [taskProgress_preserves_taskList]; exact hnd)
        (by
          intro x
          show x ∈ (m.taskProgress now).1.taskList ↔ _
          rw [taskProgress_preserves_taskList]; exact hiff x)
      refine ⟨hrec.1, fun x => ?_⟩
      simpa [execTrace, admittedIds, finishedIds] using hrec.2 x
    | started u =>
      simp only [WFfrom] at hwf
      have hrec := ih (execOp m (MOp.started u)) seen fin hwf hfs hnd hiff
      refine ⟨hrec.1, fun x => ?_⟩
      simpa [execTrace, admittedIds, finishedIds] using hrec.2 x
    | cancelled u =>
      simp only [WFfrom] at hwf
      have hrec := ih (execOp m (MOp.cancelled u)) seen fin hwf hfs hnd hiff
      refine ⟨hrec.1, fun x => ?_⟩
      simpa [execTrace, admittedIds, finishedIds] using hrec.2 x
    | failed u =>
      simp only [WFfrom] at hwf
      have hrec := ih (execOp m (MOp.failed u)) seen fin hwf hfs hnd hiff
      refine ⟨hrec.1, fun x => ?_⟩
      simpa [execTrace, admittedIds, finishedIds] using hrec.2 x

/-- C2, counterexample.  The registry invariant fails on a reachable history:
starting from a fresh manager, the single operation `startSync(3)` whose `run`
body reenters the manager, successfully admits task `7` through `start` (the
inner `start` returns normally, as the second conjunct shows for the registry
state `[3]` that `run` actually sees), and then throws.  In the resulting
state, the set of successfully admitted, not-yet-finished tasks is `{7}`
(task `3`'s synchronous start failed, `taskFinished` was never invoked), yet
`taskList()` is `[3]`: the admitted task `7` is missing and the failed task
`3` is present — because the `catch` block's `pop_back` removed the last
entry, `7`, instead of `3`. -/
theorem taskList_exactly_active_counterexample :
    (TaskManager.fresh.startSync 0 { id := 3 } reentrantRun).2.1.taskList = [3] ∧
    ((TaskManager.mk [3] none).start 0 { id := 7 } true).2.2 = false ∧
    (7 : Nat) ∉ (TaskManager.fresh.startSync 0 { id := 3 } reentrantRun).2.1.taskList ∧
    (3 : Nat) ∈ (TaskManager.fresh.startSync 0 { id := 3 } reentrantRun).2.1.taskList := by
  decide

/-- C2, amended.  For every well-formed history of manager operations — each
task handed over at most once, `taskFinished` coming only from started tasks,
and every `startSync` whose `run` throws having performed no net reentrant
registry operation between its insert and its rollback (the restriction the
counterexample forces: a throwing `startSync` whose `run` admits another task
leaves the failed task registered and drops the admitted one) — the registry,
i.e. what `taskList()` returns, is duplicate-free and contains exactly the
identities that were successfully admitted (or synchronously started) and for
which `taskFinished` has not been invoked. -/
theorem taskList_exactly_active (tr : List MOp) (h : WFfrom [] tr = true) :
    (execTrace TaskManager.fresh tr).taskList.Nodup ∧
    ∀ x, x ∈ (execTrace TaskManager.fresh tr).taskList ↔
      (x ∈ admittedIds tr ∧ x ∉ finishedIds tr) := by
  have hmain := registry_invariant tr TaskManager.fresh [] [] h
    (by simp) (by simp [TaskManager.fresh]) (by simp [TaskManager.fresh])
  refine ⟨hmain.1, fun x => ?_⟩
  simpa using hmain.2 x

/-- A concrete well-formed history used as the witness for C2: two tasks
admitted, one finished, one admission failure, one synchronous task finished
twice (the duplicate finish is a no-op). -/
def witnessTrace : List MOp :=
  [MOp.startOk 1, MOp.startOk 2, MOp.finish 1, MOp.startFail 3,
    MOp.syncOk 4, MOp.progress 5, MOp.finish 4, MOp.finish 4]

/-- Witness for C2 on `witnessTrace`: the final registry is duplicate-free and
task `2` is in it (admitted, unfinished) while task `1` is not (finished). -/
theorem taskList_exactly_active_witness :
    WFfrom [] witnessTrace = true ∧
    (execTrace TaskManager.fresh witnessTrace).taskList.Nodup ∧
    ((2 : Nat) ∈ (execTrace TaskManager.fresh witnessTrace).taskList ↔
      ((2 : Nat) ∈ admittedIds witnessTrace ∧
        (2 : Nat) ∉ finishedIds witnessTrace)) ∧
    ((1 : Nat) ∈ (execTrace TaskManager.fresh witnessTrace).taskList ↔
      ((1 : Nat) ∈ admittedIds witnessTrace ∧
        (1 : Nat) ∉ finishedIds witnessTrace)) :=
  ⟨by decide, (taskList_exactly_active witnessTrace (by decide)).1,
    (taskList_exactly_active witnessTrace (by decide)).2 2,
    (taskList_exactly_active witnessTrace (by decide)).2 1⟩

end Poco
